import Mathlib

/-!
Verification development for the message-extraction pipeline
(`create_clean_db.py`): a shallow embedding of the blob text decoder,
the text normalizer, the message classifiers, the record-transformer
dispatch and the timestamp conversion, together with theorems settling
the specified properties.

Python strings are modelled as `List Char`, byte strings as `List Nat`
(each element a byte value), `None` as `Option.none`.  Unicode-table
dependent character predicates (`str.isprintable`, `str.isalpha`, ...)
are modelled exactly on the ASCII range (which covers every character
class test the pipeline's regexes perform, since those use explicit
ASCII classes) and by explicit tables for the non-ASCII characters the
pipeline manipulates.
-/

/-- Python strings are lists of unicode scalar values. -/
abbrev Str := List Char

/-- The set of characters Python's `str.strip` / `str.isspace` / regex
class `\s` treats as whitespace (the Unicode whitespace table). -/
def pyIsSpace (c : Char) : Bool :=
  ([0x09, 0x0A, 0x0B, 0x0C, 0x0D, 0x1C, 0x1D, 0x1E, 0x1F, 0x20,
    0x85, 0xA0, 0x1680, 0x2000, 0x2001, 0x2002, 0x2003, 0x2004, 0x2005,
    0x2006, 0x2007, 0x2008, 0x2009, 0x200A, 0x2028, 0x2029, 0x202F,
    0x205F, 0x3000] : List Nat).contains c.toNat

/-- Non-ASCII code points that Python's `str.isprintable` rejects
(format controls, separators and the like), restricted to an explicit
table.  ASCII is handled exactly in `pyPrintable`. -/
def nonPrintableTable : List Nat :=
  [0x85, 0xA0, 0xAD, 0x061C, 0x1680, 0x180E,
   0x2000, 0x2001, 0x2002, 0x2003, 0x2004, 0x2005, 0x2006, 0x2007,
   0x2008, 0x2009, 0x200A, 0x200B, 0x200C, 0x200D, 0x200E, 0x200F,
   0x2028, 0x2029, 0x202A, 0x202B, 0x202C, 0x202D, 0x202E, 0x202F,
   0x205F, 0x2060, 0x2061, 0x2062, 0x2063, 0x2064, 0x3000,
   0xFEFF, 0xFFF9, 0xFFFA, 0xFFFB]

/-- Model of Python's `str.isprintable` on a single character: exact on
ASCII (precisely `0x20 ≤ c ≤ 0x7E`), and via `nonPrintableTable` beyond
ASCII (C1 controls are rejected wholesale). -/
def pyPrintable (c : Char) : Bool :=
  let n := c.toNat
  if n < 0x20 then false
  else if n ≤ 0x7E then true
  else if n ≤ 0x9F then false
  else !(nonPrintableTable.contains n)

/-- The character filter `c.isprintable() or c in chr(10)+chr(13)+chr(9)`
used both by decode strategy 3 and by normalisation step 2. -/
def printOk (c : Char) : Bool :=
  pyPrintable c || c == '\n' || c == '\r' || c == '\t'

/-- The sentinel `[binary data]` returned by the decoder's terminal
fallback. -/
def binaryDataSentinel : Str := "[binary data]".toList

/-- The sentinel `[no text]`. -/
def noTextSentinel : Str := "[no text]".toList

/-- The replacement `[image]` substituted for the object replacement
character. -/
def imageTag : Str := "[image]".toList

/-- Normalisation step 1: `text.replace(chr(0xFFFC), imageTag)`. -/
def replaceObjChar (l : Str) : Str :=
  l.flatMap (fun c => if c = '￼' then imageTag else [c])

/-- Normalisation step 2: keep printable characters and
newline/carriage-return/tab. -/
def keepPrintable (l : Str) : Str := l.filter printOk

/-- The character class of the leading-format-code regex
(step 3); `Char.ofNat 0x60` is the grave accent, `Char.ofNat 0x24` the
dollar sign. -/
def specialLeads : List Char :=
  ['+', '*', '!', '.', ',', ';', '#', '%', Char.ofNat 0x60, '~', '^',
   '&', '@', Char.ofNat 0x24]

/-- Membership in the step-3 class: the listed symbols or whitespace. -/
def leadStripChar (c : Char) : Bool :=
  specialLeads.contains c || pyIsSpace c

/-- Normalisation step 3: strip the leading run matched by the
anchored regex over `leadStripChar`. -/
def stripLeadingFormat (l : Str) : Str := l.dropWhile leadStripChar

/-- The literal `NSDictionary`. -/
def nsDictionaryLit : Str := "NSDictionary".toList

/-- Whether the regex for step 4 matches starting exactly at the head of
`s` and extends to the end of the whole string: whitespace run, the
literal, then whitespace to the end (the trailing anchor; a greedy
whitespace run absorbs any final newline as well). -/
def r4MatchAt (s : Str) : Bool :=
  let s1 := s.dropWhile pyIsSpace
  nsDictionaryLit.isPrefixOf s1 && (s1.drop 12).all pyIsSpace

/-- Normalisation step 4: remove the leftmost (hence unique) trailing
`NSDictionary` artifact. -/
def r4Search : Str → Option Nat
  | [] => none
  | c :: r => if r4MatchAt (c :: r) then some 0 else (r4Search r).map (· + 1)

/-- Normalisation step 4 continued: removal at the leftmost match. -/
def stripNSDictionary (l : Str) : Str :=
  match r4Search l with
  | some i => l.take i
  | none => l

/-- The literal `NSMutable`. -/
def nsMutableLit : Str := "NSMutable".toList

/-- Whether the step-5 regex (whitespace run, `NSMutable`, one or more
ASCII letters, whitespace to the end) matches starting at the head of
`s`. -/
def r5MatchAt (s : Str) : Bool :=
  let s1 := s.dropWhile pyIsSpace
  nsMutableLit.isPrefixOf s1 &&
    (let s2 := s1.drop 9
     !(s2.takeWhile Char.isAlpha).isEmpty &&
       (s2.dropWhile Char.isAlpha).all pyIsSpace)

/-- Normalisation step 5: remove the leftmost trailing `NSMutable...`
artifact. -/
def r5Search : Str → Option Nat
  | [] => none
  | c :: r => if r5MatchAt (c :: r) then some 0 else (r5Search r).map (· + 1)

/-- Normalisation step 5 continued: removal at the leftmost match. -/
def stripNSMutable (l : Str) : Str :=
  match r5Search l with
  | some i => l.take i
  | none => l

/-- The literal `__kIM`. -/
def kIMLit : Str := "__kIM".toList

/-- Step-6 regex match starting at the head of `s`: whitespace run,
optional ampersand, `__kIM`, then a non-whitespace run and an
unrestricted (dot) run.  The dot cannot cross a newline, and the end
anchor accepts the true end or the position before a final newline;
hence the match extends exactly to the first newline after the literal,
which must be absent (`some false`) or the final character
(`some true`, in which case that newline survives the substitution). -/
def r6MatchAt (s : Str) : Option Bool :=
  let s1 := s.dropWhile pyIsSpace
  let s2 := if s1.head? = some '&' then s1.tail else s1
  if kIMLit.isPrefixOf s2 then
    let tail := (s2.drop 5).dropWhile (fun c => !(c == '\n'))
    if tail = [] then some false
    else if tail = ['\n'] then some true
    else none
  else none

/-- Normalisation step 6: remove the leftmost `__kIM...` metadata tail. -/
def r6Search : Str → Option (Nat × Bool)
  | [] => none
  | c :: r =>
    match r6MatchAt (c :: r) with
    | some b => some (0, b)
    | none => (r6Search r).map (fun q => (q.1 + 1, q.2))

/-- Normalisation step 6 continued: removal at the leftmost match, the
final newline surviving when the flag is set. -/
def stripKIM (l : Str) : Str :=
  match r6Search l with
  | some q => l.take q.1 ++ (if q.2 then ['\n'] else [])
  | none => l

/-- Step-7 regex match starting at the head of `s`: a lowercase `i` or
`j`, an uppercase `I`, then a non-whitespace run to the end anchor
(true end, or the position just before a final newline). -/
def r7MatchAt (s : Str) : Option Bool :=
  match s with
  | c :: d :: rest =>
    if (c == 'i' || c == 'j') && d == 'I' then
      let tail := rest.dropWhile (fun x => !pyIsSpace x)
      if tail = [] then some false
      else if tail = ['\n'] then some true
      else none
    else none
  | _ => none

/-- Normalisation step 7: remove the leftmost trailing `iI...`/`jI...`
artifact. -/
def r7Search : Str → Option (Nat × Bool)
  | [] => none
  | c :: r =>
    match r7MatchAt (c :: r) with
    | some b => some (0, b)
    | none => (r7Search r).map (fun q => (q.1 + 1, q.2))

/-- Normalisation step 7 continued: removal at the leftmost match. -/
def stripIJI (l : Str) : Str :=
  match r7Search l with
  | some q => l.take q.1 ++ (if q.2 then ['\n'] else [])
  | none => l

/-- Normalisation step 8: drop a leading ASCII digit when an ASCII
letter follows (the lookahead keeps the letter). -/
def dropLeadingDigit (l : Str) : Str :=
  match l with
  | c :: d :: rest => if c.isDigit && d.isAlpha then d :: rest else l
  | _ => l

/-- The apostrophe character. -/
def apostropheChar : Char := Char.ofNat 0x27

/-- Normalisation step 9: the single-shot leading-artifact correction.
`Char.isAlpha`/`Char.isLower`/`Char.isUpper`/`Char.toLower` model the
Python predicates on the ASCII range. -/
def leadingArtifact (l : Str) : Str :=
  match l with
  | c0 :: c1 :: c2 :: rest =>
    if c0.isAlpha then
      if c0.isLower && c1.isUpper then c1 :: c2 :: rest
      else if ((c1 :: c2 :: rest).take 4).map Char.toLower = "http".toList then
        c1 :: c2 :: rest
      else if c1 = 'i' && (c2 = ' ' || c2 = apostropheChar) then c1 :: c2 :: rest
      else l
    else l
  | _ => l

/-- Normalisation step 10: collapse each run of two or more spaces into
a single space. -/
def collapseSpaces : List Char → List Char
  | [] => []
  | c :: r =>
    let t := collapseSpaces r
    if c = ' ' ∧ t.head? = some ' ' then t else c :: t

/-- Normalisation step 11: Python's `str.strip()`. -/
def pyStrip (l : Str) : Str :=
  (l.dropWhile pyIsSpace).rdropWhile pyIsSpace

/-- Normalisation steps 1 through 10 composed, the pipeline value just
before the final strip. -/
def preStripValue (s : Str) : Str :=
  collapseSpaces (leadingArtifact (dropLeadingDigit (stripIJI
    (stripKIM (stripNSMutable (stripNSDictionary (stripLeadingFormat
      (keepPrintable (replaceObjChar s)))))))))

/-- The full eleven-step normalisation pipeline applied to a
non-sentinel, non-empty string. -/
def normalizeStr (s : Str) : Str := pyStrip (preStripValue s)

/-- The normaliser `clean_message`: passes through null, the empty
string and the two sentinels, otherwise runs the pipeline. -/
def clean_message : Option Str → Option Str
  | none => none
  | some s =>
    if s = [] ∨ s = binaryDataSentinel ∨ s = noTextSentinel then some s
    else some (normalizeStr s)

/-- The reaction verbs of the classifier's alternation. -/
def reactionWords : List Str :=
  ["Reacted".toList, "Loved".toList, "Laughed".toList, "Emphasized".toList,
   "Disliked".toList, "Questioned".toList, "Liked".toList]

/-- Whether `l` starts with the word `w` immediately followed by a
whitespace character (one alternative of the anchored regex). -/
def startsReaction (l w : Str) : Bool :=
  w.isPrefixOf l &&
    (match (l.drop w.length).head? with
     | some c => pyIsSpace c
     | none => false)

/-- The classifier `is_reaction_message`. -/
def is_reaction_message : Option Str → Bool
  | none => false
  | some l => if l = [] then false else reactionWords.any (startsReaction l)

/-- The quote-character set `QUOTE_CHARS` (ASCII double and single
quote, the Unicode left/right double and single quotation marks; the
source literal lists the curly double quotes twice, which is harmless
for membership). -/
def quoteChars : List Char :=
  [Char.ofNat 0x22, apostropheChar, '“', '”', '‘', '’']

/-- The classifier `is_quoted_message`. -/
def is_quoted_message : Option Str → Bool
  | none => false
  | some l =>
    if l = [] then false
    else
      match (l.rdropWhile pyIsSpace).getLast? with
      | some c => quoteChars.contains c
      | none => false

/-- Continuation byte test for the UTF-8 decoder. -/
def isCont (b : Nat) : Bool := 0x80 ≤ b && b ≤ 0xBF

/-- Admissible first continuation byte for a given multi-byte lead, per
the UTF-8 validity rules (overlongs, surrogates and values beyond
U+10FFFF rejected at the first continuation). -/
def validFirstCont (lead c : Nat) : Bool :=
  if lead = 0xE0 then 0xA0 ≤ c && c ≤ 0xBF
  else if lead = 0xED then 0x80 ≤ c && c ≤ 0x9F
  else if lead = 0xF0 then 0x90 ≤ c && c ≤ 0xBF
  else if lead = 0xF4 then 0x80 ≤ c && c ≤ 0x8F
  else isCont c

/-- UTF-8 decoding with `errors` set to ignore, modelling CPython: an
invalid or truncated sequence consumes the lead byte together with the
continuation bytes already validated, and decoding resumes at the first
offending byte. -/
def utf8IgnoreDecode : List Nat → List Char
  | [] => []
  | [b] =>
    if b < 0x80 then [Char.ofNat b] else []
  | b :: c1 :: r1 =>
    if b < 0x80 then Char.ofNat b :: utf8IgnoreDecode (c1 :: r1)
    else if 0xC2 ≤ b && b ≤ 0xDF then
      if isCont c1 then
        Char.ofNat ((b - 0xC0) * 0x40 + (c1 - 0x80)) :: utf8IgnoreDecode r1
      else utf8IgnoreDecode (c1 :: r1)
    else if 0xE0 ≤ b && b ≤ 0xEF then
      if validFirstCont b c1 then
        match r1 with
        | [] => []
        | c2 :: r2 =>
          if isCont c2 then
            Char.ofNat ((b - 0xE0) * 0x1000 + (c1 - 0x80) * 0x40 + (c2 - 0x80)) ::
              utf8IgnoreDecode r2
          else utf8IgnoreDecode (c2 :: r2)
      else utf8IgnoreDecode (c1 :: r1)
    else if 0xF0 ≤ b && b ≤ 0xF4 then
      if validFirstCont b c1 then
        match r1 with
        | [] => []
        | c2 :: r2 =>
          if isCont c2 then
            match r2 with
            | [] => []
            | c3 :: r3 =>
              if isCont c3 then
                Char.ofNat ((b - 0xF0) * 0x40000 + (c1 - 0x80) * 0x1000 +
                  (c2 - 0x80) * 0x40 + (c3 - 0x80)) :: utf8IgnoreDecode r3
              else utf8IgnoreDecode (c3 :: r3)
          else utf8IgnoreDecode (c2 :: r2)
      else utf8IgnoreDecode (c1 :: r1)
    else utf8IgnoreDecode (c1 :: r1)
  termination_by structural l => l

/-- The byte marker `NSString` (eight bytes). -/
def nsStringMarker : List Nat := [0x4E, 0x53, 0x53, 0x74, 0x72, 0x69, 0x6E, 0x67]

/-- Leftmost index at which `pat` occurs in `l` (Python `bytes.find`,
with the in-test folded in by returning an option). -/
def findSub (pat : List Nat) : List Nat → Option Nat
  | [] => if pat.isPrefixOf [] then some 0 else none
  | b :: r => if pat.isPrefixOf (b :: r) then some 0 else (findSub pat r).map (· + 1)

/-- Position of the first NUL byte (Python `bytes.find` for the NUL,
relative to the start of the searched slice). -/
def findNulIdx : List Nat → Option Nat
  | [] => none
  | b :: r => if b = 0 then some 0 else (findNulIdx r).map (· + 1)

/-- Decode strategy 2: the `NSString` marker scan.  `idx` is eight bytes
past the marker start, `k` the distance to the following NUL; the scan
requires the NUL strictly past `idx` and a non-empty decode. -/
def strategy2 (data : List Nat) : Option Str :=
  match findSub nsStringMarker data with
  | none => none
  | some j =>
    let idx := j + 8
    if idx < data.length then
      match findNulIdx (data.drop idx) with
      | none => none
      | some k =>
        if 0 < k then
          let text := utf8IgnoreDecode ((data.drop idx).take k)
          if text = [] then none else some text
        else none
    else none

/-- Decode strategy 3: the fixed-offset raw scan at offset `50`.  The
truthiness test is on the filtered string, while the value returned is
that string stripped. -/
def strategy3 (data : List Nat) : Option Str :=
  if 50 < data.length then
    let cleaned := (utf8IgnoreDecode (data.drop 50)).filter printOk
    if cleaned = [] then none else some (pyStrip cleaned)
  else none

/-- Result of the strategy chain after the optional platform strategy
declined: marker scan, then fixed-offset scan, then the sentinel. -/
def decodeTail (data : List Nat) : Str :=
  (strategy2 data).getD ((strategy3 data).getD binaryDataSentinel)

/-- The decoder `decode_attributed_body`.  The first argument models
the outcome of the optional platform deserialisation strategy: `some t`
when a deserialiser was available and produced the string `t` (returned
when non-empty, exactly as the source returns `text` only `if text`),
`none` when the capability is absent or failed; every failure mode of
that strategy falls through to the marker scan. -/
def decode_attributed_body (s1 : Option Str) (data : List Nat) : Option Str :=
  if data = [] then none
  else
    match s1 with
    | some t => if t = [] then some (decodeTail data) else some t
    | none => some (decodeTail data)

/-- Truthiness of the optional plain-text column. -/
def strTruthy : Option Str → Bool
  | some t => !t.isEmpty
  | none => false

/-- Truthiness of the optional blob column. -/
def bytesTruthy : Option (List Nat) → Bool
  | some b => !b.isEmpty
  | none => false

/-- The record transformer's dispatch for the pre-normalisation text:
plain text when truthy, else the decoder on a truthy blob, else the
empty string. -/
def preNormText (s1 : Option Str) (text : Option Str) (blob : Option (List Nat)) :
    Option Str :=
  if strTruthy text then text
  else if bytesTruthy blob then decode_attributed_body s1 (blob.getD [])
  else some []

/-- The dispatch as the claim words it: plain text when present and
non-empty, else the decoder output whenever a blob is present at all,
else the empty string. -/
def preNormTextClaim (s1 : Option Str) (text : Option Str) (blob : Option (List Nat)) :
    Option Str :=
  if strTruthy text then text
  else
    match blob with
    | some b => decode_attributed_body s1 b
    | none => some []

/-- The dispatch as amended: a blob is consulted only when present and
non-empty, stated by structural cases rather than truthiness tests. -/
def preNormTextAmended (s1 : Option Str) :
    Option Str → Option (List Nat) → Option Str
  | some (c :: t), _ => some (c :: t)
  | some [], some (b :: bs) => decode_attributed_body s1 (b :: bs)
  | none, some (b :: bs) => decode_attributed_body s1 (b :: bs)
  | some [], _ => some []
  | none, _ => some []

/-- Floor of a rational, computed directly from its normal form (the
denominator is positive, so flooring division of numerator by
denominator is the floor). -/
def ratFloor (q : ℚ) : ℤ := Int.fdiv q.num q.den

/-- Rational addition spelled through `mkRat` so that every value in
this section reduces inside `decide`. -/
def ratAdd (a b : ℚ) : ℚ := mkRat (a.num * b.den + b.num * a.den) (a.den * b.den)

/-- Rational subtraction through `mkRat`. -/
def ratSub (a b : ℚ) : ℚ := mkRat (a.num * b.den - b.num * a.den) (a.den * b.den)

/-- Rational multiplication through `mkRat`. -/
def ratMul (a b : ℚ) : ℚ := mkRat (a.num * b.num) (a.den * b.den)

/-- Rational negation through `mkRat`. -/
def ratNeg (a : ℚ) : ℚ := mkRat (-a.num) a.den

/-- Rational division through `mkRat` (zero on a zero divisor, which
never arises here). -/
def ratDiv (a b : ℚ) : ℚ :=
  if b.num < 0 then mkRat (-(a.num * (b.den : ℤ))) (a.den * b.num.natAbs)
  else mkRat (a.num * (b.den : ℤ)) (a.den * b.num.natAbs)

/-- Integral power of two as a rational. -/
def pow2Q (n : ℤ) : ℚ :=
  if 0 ≤ n then ((2 ^ n.toNat : ℕ) : ℚ) else mkRat 1 (2 ^ (-n).toNat)

/-- Round a rational to the nearest integer, ties to even. -/
def rne (q : ℚ) : ℤ :=
  let f := ratFloor q
  let frac := ratSub q ((f : ℤ) : ℚ)
  if Rat.blt frac (mkRat 1 2) then f
  else if Rat.blt (mkRat 1 2) frac then f + 1
  else if f % 2 = 0 then f else f + 1

/-- Base-2 logarithm of a natural number, structurally recursive on a
fuel argument so it reduces inside `decide` (`natLog2Aux n n` computes
`Nat.log2 n` since the logarithm is below the fuel `n`). -/
def natLog2Aux : ℕ → ℕ → ℕ
  | 0, _ => 0
  | fuel + 1, n => if n < 2 then 0 else natLog2Aux fuel (n / 2) + 1

/-- Base-2 logarithm: greatest `k` with `2 ^ k ≤ n` (zero on `n = 0`). -/
def natLog2 (n : ℕ) : ℕ := natLog2Aux n n

/-- Binary exponent of a positive rational: the unique `e` with
`2 ^ e ≤ q < 2 ^ (e + 1)` (junk on nonpositive input). -/
def floorLog2Q (q : ℚ) : ℤ :=
  if !(Rat.blt q ((1 : ℤ) : ℚ)) then (natLog2 (ratFloor q).toNat : ℤ)
  else
    let k : ℕ := natLog2 (ratFloor (ratDiv ((1 : ℤ) : ℚ) q)).toNat
    if ratMul q (((2 ^ k : ℕ) : ℚ)) = ((1 : ℤ) : ℚ) then -(k : ℤ) else -(k : ℤ) - 1

/-- Correctly rounded conversion of an exact rational into an IEEE-754
binary64 value (as the exact rational it denotes): round to nearest,
ties to even, 53-bit significand, exponents clamped below at the
subnormal range.  Values beyond the binary64 overflow threshold do not
arise in this development. -/
def rnd53 (q : ℚ) : ℚ :=
  if q = 0 then 0
  else
    let a := if Rat.blt q 0 then ratNeg q else q
    let e0 : ℤ := floorLog2Q a
    let e : ℤ := if e0 < -1022 then -1022 else e0
    let scale : ℚ := pow2Q (52 - e)
    let m : ℤ := rne (ratMul a scale)
    ratDiv (if Rat.blt q 0 then ratNeg ((m : ℤ) : ℚ) else ((m : ℤ) : ℚ)) scale

/-- Python's true division of two integers: the correctly rounded
binary64 value of the exact quotient. -/
def pyDivFloat (a b : ℤ) : ℚ := rnd53 (ratDiv ((a : ℤ) : ℚ) ((b : ℤ) : ℚ))

/-- Python's float addition (both operands already binary64 values). -/
def pyAddFloat (x y : ℚ) : ℚ := rnd53 (ratAdd x y)

/-- Python's `int()` on a float: truncation toward zero. -/
def pyIntOfFloat (q : ℚ) : ℤ :=
  if Rat.blt q 0 then -(ratFloor (ratNeg q)) else ratFloor q

/-- The Apple epoch offset in Unix seconds. -/
def APPLE_EPOCH : ℤ := 978307200

/-- The converter `apple_to_unix`, including its floating-point
arithmetic: `int(timestamp / 1_000_000_000 + APPLE_EPOCH)` where the
division and addition are binary64 operations (the epoch converts to
binary64 exactly). -/
def apple_to_unix : Option ℤ → Option ℤ
  | none => none
  | some ts =>
    if ts = 0 then none
    else some (pyIntOfFloat (pyAddFloat (pyDivFloat ts 1000000000) (rnd53 978307200)))

/-- The conversion the claim specifies: exact
`floor(ts / 1_000_000_000) + 978307200`. -/
def appleToUnixFloorSpec : Option ℤ → Option ℤ
  | none => none
  | some ts =>
    if ts = 0 then none
    else some (ratFloor (ratDiv ((ts : ℤ) : ℚ) ((1000000000 : ℤ) : ℚ)) + APPLE_EPOCH)


/-! Helper lemmas about character classes. -/

theorem charEqOfToNat {c d : Char} (h : c.toNat = d.toNat) : c = d :=
  Char.ext (UInt32.toNat.inj h)

theorem isUpperToNat {c : Char} (h : c.isUpper = true) :
    65 ≤ c.toNat ∧ c.toNat ≤ 90 := by
  simp only [Char.isUpper, ge_iff_le, Bool.and_eq_true, decide_eq_true_eq] at h
  exact ⟨h.1, h.2⟩

theorem isLowerToNat {c : Char} (h : c.isLower = true) :
    97 ≤ c.toNat ∧ c.toNat ≤ 122 := by
  simp only [Char.isLower, ge_iff_le, Bool.and_eq_true, decide_eq_true_eq] at h
  exact ⟨h.1, h.2⟩

theorem isDigitToNat {c : Char} (h : c.isDigit = true) :
    48 ≤ c.toNat ∧ c.toNat ≤ 57 := by
  simp only [Char.isDigit, ge_iff_le, Bool.and_eq_true, decide_eq_true_eq] at h
  exact ⟨h.1, h.2⟩

theorem isAlphaToNat {c : Char} (h : c.isAlpha = true) :
    (65 ≤ c.toNat ∧ c.toNat ≤ 90) ∨ (97 ≤ c.toNat ∧ c.toNat ≤ 122) := by
  simp only [Char.isAlpha, Bool.or_eq_true] at h
  rcases h with h | h
  · exact Or.inl (isUpperToNat h)
  · exact Or.inr (isLowerToNat h)

theorem pyIsSpaceFalseOfBounds {c : Char} (h1 : 33 ≤ c.toNat) (h2 : c.toNat ≤ 132) :
    pyIsSpace c = false := by
  simp only [pyIsSpace, List.elem_eq_mem, List.mem_cons, List.not_mem_nil, or_false,
    decide_eq_false_iff_not]
  intro hmem
  rcases hmem with h | h | h | h | h | h | h | h | h | h | h | h | h | h | h |
    h | h | h | h | h | h | h | h | h | h | h | h | h | h <;> omega

theorem alphaNotSpace {c : Char} (h : c.isAlpha = true) : pyIsSpace c = false := by
  rcases isAlphaToNat h with ⟨h1, h2⟩ | ⟨h1, h2⟩ <;>
    exact pyIsSpaceFalseOfBounds (by omega) (by omega)

theorem alphaNotDigit {c : Char} (h : c.isAlpha = true) : c.isDigit = false := by
  cases hd : c.isDigit
  · rfl
  · rcases isDigitToNat hd with ⟨h3, h4⟩
    rcases isAlphaToNat h with ⟨h1, h2⟩ | ⟨h1, h2⟩ <;> omega

theorem memSpecialToNat {c : Char} (h : c ∈ specialLeads) :
    c.toNat ∈ ([43, 42, 33, 46, 44, 59, 35, 37, 96, 126, 94, 38, 64, 36] : List Nat) := by
  simp only [specialLeads, List.mem_cons, List.not_mem_nil, or_false] at h
  rcases h with rfl | rfl | rfl | rfl | rfl | rfl | rfl | rfl | rfl | rfl | rfl |
    rfl | rfl | rfl <;> decide

theorem alphaNotLead {c : Char} (h : c.isAlpha = true) : leadStripChar c = false := by
  have hs := alphaNotSpace h
  cases hl : leadStripChar c
  · rfl
  · exfalso
    simp only [leadStripChar, Bool.or_eq_true, hs, Bool.or_false,
      List.elem_eq_mem, decide_eq_true_eq] at hl
    have h2 := memSpecialToNat hl
    simp only [List.mem_cons, List.not_mem_nil, or_false] at h2
    rcases isAlphaToNat h with ⟨h1, h3⟩ | ⟨h1, h3⟩ <;> omega

/-! Helper lemmas about lists, stripping and collapsing. -/

theorem memOfPre {l1 l2 : Str} (h : l1 <+: l2) {a : Char} (ha : a ∈ l1) : a ∈ l2 := by
  obtain ⟨u, rfl⟩ := h
  exact List.mem_append_left u ha

theorem takePre (l : Str) (n : Nat) : l.take n <+: l :=
  ⟨l.drop n, List.take_append_drop n l⟩

theorem headOfPre {l1 l2 : Str} (h : l1 <+: l2) {c : Char} (hc : l1.head? = some c) :
    l2.head? = some c := by
  obtain ⟨u, rfl⟩ := h
  cases l1 with
  | nil => simp at hc
  | cons x r => simp_all

theorem pairOfPre {l1 l2 : Str} (h : l1 <+: l2) {c d : Char} {r : Str}
    (hc : l1 = c :: d :: r) : ∃ r2, l2 = c :: d :: r2 := by
  obtain ⟨u, rfl⟩ := h
  subst hc
  exact ⟨r ++ u, by simp⟩

theorem eqTakeOfPre {l1 l2 : Str} (h : l1 <+: l2) : l1 = l2.take l1.length := by
  obtain ⟨u, rfl⟩ := h
  simp

theorem dropWhileEqSelf (p : Char → Bool) (l : Str)
    (h : ∀ c, l.head? = some c → p c = false) : l.dropWhile p = l := by
  cases l with
  | nil => rfl
  | cons c r =>
    have := h c rfl
    simp [List.dropWhile_cons, this]

theorem headDropWhile (p : Char → Bool) (l : Str) {c : Char}
    (h : (l.dropWhile p).head? = some c) : p c = false := by
  induction l with
  | nil => simp at h
  | cons a r ih =>
    by_cases hp : p a
    · rw [List.dropWhile_cons_of_pos hp] at h
      exact ih h
    · rw [List.dropWhile_cons_of_neg hp] at h
      simp at h
      subst h
      simpa using hp

theorem memDropWhile (p : Char → Bool) (l : Str) {a : Char}
    (h : a ∈ l.dropWhile p) : a ∈ l := by
  have hs : l.dropWhile p <:+ l := List.dropWhile_suffix p
  obtain ⟨u, hu⟩ := hs
  have h2 : a ∈ u ++ l.dropWhile p := List.mem_append_right u h
  rwa [hu] at h2

theorem memRdropWhile (p : Char → Bool) (l : Str) {a : Char}
    (h : a ∈ l.rdropWhile p) : a ∈ l := by
  have hp : l.rdropWhile p <+: l := List.rdropWhile_prefix p l
  exact memOfPre hp h

theorem memPyStrip {l : Str} {a : Char} (h : a ∈ pyStrip l) : a ∈ l :=
  memDropWhile pyIsSpace l (memRdropWhile pyIsSpace _ h)

theorem pyStripHead (l : Str) {c : Char} (h : (pyStrip l).head? = some c) :
    pyIsSpace c = false := by
  have hp : pyStrip l <+: l.dropWhile pyIsSpace :=
    List.rdropWhile_prefix pyIsSpace (l.dropWhile pyIsSpace)
  exact headDropWhile pyIsSpace l (headOfPre hp h)

theorem pyStripLast (l : Str) {c : Char} (h : (pyStrip l).getLast? = some c) :
    pyIsSpace c = false := by
  unfold pyStrip at h
  have hne : (l.dropWhile pyIsSpace).rdropWhile pyIsSpace ≠ [] := by
    intro he
    rw [he] at h
    simp at h
  have h2 := List.rdropWhile_last_not pyIsSpace (l.dropWhile pyIsSpace) hne
  rw [List.getLast?_eq_getLast _ hne] at h
  have h3 := Option.some.inj h
  rw [h3] at h2
  simpa using h2

theorem pyStripIdem (l : Str) : pyStrip (pyStrip l) = pyStrip l := by
  have h1 : (pyStrip l).dropWhile pyIsSpace = pyStrip l :=
    dropWhileEqSelf _ _ (fun c hc => pyStripHead l hc)
  show ((pyStrip l).dropWhile pyIsSpace).rdropWhile pyIsSpace = pyStrip l
  rw [h1]
  apply List.rdropWhile_eq_self_iff.mpr
  intro hl
  have h2 := List.getLast?_eq_getLast _ hl
  have h3 := pyStripLast l h2
  simp [h3]

theorem pyStripNil : pyStrip [] = [] := rfl

theorem headCollapse (c : Char) (r : Str) :
    (collapseSpaces (c :: r)).head? = some c := by
  rw [collapseSpaces]
  split
  · rename_i h
    rw [h.2, h.1]
  · rfl

theorem memCollapse {l : Str} {a : Char} (h : a ∈ collapseSpaces l) : a ∈ l := by
  induction l with
  | nil => simp [collapseSpaces] at h
  | cons c r ih =>
    rw [collapseSpaces] at h
    split at h
    · exact List.mem_cons_of_mem c (ih h)
    · rcases List.mem_cons.mp h with rfl | h2
      · exact List.mem_cons_self a r
      · exact List.mem_cons_of_mem c (ih h2)

/-- No two adjacent space characters occur in `l`. -/
def noDbl (l : Str) : Prop :=
  List.Chain' (fun a b => ¬(a = ' ' ∧ b = ' ')) l

theorem noDoubleSpace (l : Str) : noDbl (collapseSpaces l) := by
  unfold noDbl
  induction l with
  | nil => simp [collapseSpaces]
  | cons c r ih =>
    rw [collapseSpaces]
    split
    · exact ih
    · rename_i hno
      rw [List.chain'_cons']
      refine ⟨?_, ih⟩
      intro y hy hcon
      exact hno ⟨hcon.1, hcon.2 ▸ hy⟩

theorem collapseEqSelf {l : Str} (h : noDbl l) : collapseSpaces l = l := by
  unfold noDbl at h
  induction l with
  | nil => rfl
  | cons c r ih =>
    rw [List.chain'_cons'] at h
    rw [collapseSpaces, ih h.2]
    split
    · rename_i h2
      exact absurd (And.intro h2.1 rfl) (h.1 ' ' h2.2)
    · rfl

/-! Structure of each normalisation rule's output. -/

theorem stripNSDictionaryPre (l : Str) : stripNSDictionary l <+: l := by
  rw [stripNSDictionary]
  cases hf : r4Search l with
  | none => exact List.prefix_rfl
  | some i => exact takePre l i

theorem stripNSMutablePre (l : Str) : stripNSMutable l <+: l := by
  rw [stripNSMutable]
  cases hf : r5Search l with
  | none => exact List.prefix_rfl
  | some i => exact takePre l i

theorem stripKIMShape (l : Str) :
    stripKIM l <+: l ∨ ∃ i, stripKIM l = l.take i ++ ['\n'] := by
  rw [stripKIM]
  cases hf : r6Search l with
  | none => exact Or.inl List.prefix_rfl
  | some q =>
    cases hb : q.2
    · left
      dsimp only
      rw [hb]
      simpa using takePre l q.1
    · exact Or.inr ⟨q.1, by dsimp only; rw [hb]; simp⟩

theorem stripIJIShape (l : Str) :
    stripIJI l <+: l ∨ ∃ i, stripIJI l = l.take i ++ ['\n'] := by
  rw [stripIJI]
  cases hf : r7Search l with
  | none => exact Or.inl List.prefix_rfl
  | some q =>
    cases hb : q.2
    · left
      dsimp only
      rw [hb]
      simpa using takePre l q.1
    · exact Or.inr ⟨q.1, by dsimp only; rw [hb]; simp⟩

theorem memStripNSDictionary {l : Str} {a : Char} (h : a ∈ stripNSDictionary l) : a ∈ l :=
  memOfPre (stripNSDictionaryPre l) h

theorem memStripNSMutable {l : Str} {a : Char} (h : a ∈ stripNSMutable l) : a ∈ l :=
  memOfPre (stripNSMutablePre l) h

theorem memStripKIM {l : Str} {a : Char} (h : a ∈ stripKIM l) : a ∈ l ∨ a = '\n' := by
  rcases stripKIMShape l with hp | ⟨i, hi⟩
  · exact Or.inl (memOfPre hp h)
  · rw [hi] at h
    rcases List.mem_append.mp h with h2 | h2
    · exact Or.inl (memOfPre (takePre l i) h2)
    · simp at h2
      exact Or.inr h2

theorem memStripIJI {l : Str} {a : Char} (h : a ∈ stripIJI l) : a ∈ l ∨ a = '\n' := by
  rcases stripIJIShape l with hp | ⟨i, hi⟩
  · exact Or.inl (memOfPre hp h)
  · rw [hi] at h
    rcases List.mem_append.mp h with h2 | h2
    · exact Or.inl (memOfPre (takePre l i) h2)
    · simp at h2
      exact Or.inr h2

theorem memDropLeadingDigit {l : Str} {a : Char} (h : a ∈ dropLeadingDigit l) : a ∈ l := by
  rcases l with _ | ⟨c, _ | ⟨d, rest⟩⟩
  · exact h
  · exact h
  · rw [dropLeadingDigit] at h
    split at h
    · exact List.mem_cons_of_mem c h
    · exact h

theorem memLeadingArtifact {l : Str} {a : Char} (h : a ∈ leadingArtifact l) : a ∈ l := by
  rcases l with _ | ⟨c0, _ | ⟨c1, _ | ⟨c2, rest⟩⟩⟩
  · exact h
  · exact h
  · exact h
  · rw [leadingArtifact] at h
    split at h
    · split at h
      · exact List.mem_cons_of_mem c0 h
      · split at h
        · exact List.mem_cons_of_mem c0 h
        · split at h
          · exact List.mem_cons_of_mem c0 h
          · exact h
    · exact h

theorem memStripLeadingFormat {l : Str} {a : Char} (h : a ∈ stripLeadingFormat l) : a ∈ l :=
  memDropWhile leadStripChar l h

theorem memKeepPrintable {l : Str} {a : Char} (h : a ∈ keepPrintable l) : a ∈ l :=
  List.mem_of_mem_filter h

theorem printOkOfMemKeepPrintable {l : Str} {a : Char} (h : a ∈ keepPrintable l) :
    printOk a = true :=
  List.of_mem_filter h

theorem memReplaceObjChar {l : Str} {a : Char} (h : a ∈ replaceObjChar l) :
    (a ∈ l ∧ a ≠ '￼') ∨ a ∈ imageTag := by
  induction l with
  | nil => simp [replaceObjChar] at h
  | cons c r ih =>
    rw [replaceObjChar, List.flatMap_cons] at h
    rcases List.mem_append.mp h with h2 | h2
    · by_cases hc : c = '￼'
      · rw [if_pos hc] at h2
        exact Or.inr h2
      · rw [if_neg hc] at h2
        simp at h2
        subst h2
        exact Or.inl ⟨List.mem_cons_self a r, hc⟩
    · rcases ih h2 with ⟨h3, h4⟩ | h3
      · exact Or.inl ⟨List.mem_cons_of_mem c h3, h4⟩
      · exact Or.inr h3

/-! Invariants carried through the pipeline: a non-whitespace head is
never one of the step-3 characters, a whitespace head only arises as a
lone retained newline, and a digit head is never followed by a letter
once step 8 has run. -/

def headOK (u : Str) : Prop :=
  ∀ c r, u = c :: r →
    (pyIsSpace c = true → c = '\n' ∧ r = []) ∧
    (pyIsSpace c = false → leadStripChar c = false)

def pairOK (u : Str) : Prop :=
  ∀ c d r, u = c :: d :: r → c.isDigit = true → d.isAlpha = false

theorem headOKNil : headOK [] := by
  intro c r h
  simp at h

theorem headOKNl : headOK ['\n'] := by
  intro c r h
  injection h with h1 h2
  subst h1
  subst h2
  constructor
  · intro
    exact ⟨rfl, rfl⟩
  · intro hw
    exact absurd hw (by decide)

theorem headOKOfPre {l1 l2 : Str} (h : l1 <+: l2) (hOK : headOK l2) : headOK l1 := by
  obtain ⟨u, rfl⟩ := h
  intro c r hl
  subst hl
  have h2 := hOK c (r ++ u) rfl
  constructor
  · intro hw
    have h3 := h2.1 hw
    rcases List.append_eq_nil.mp h3.2 with ⟨hr, _⟩
    exact ⟨h3.1, hr⟩
  · exact h2.2

theorem headOKStripLeadingFormat (l : Str) : headOK (stripLeadingFormat l) := by
  intro c r hl
  have hc : (l.dropWhile leadStripChar).head? = some c := by
    rw [stripLeadingFormat] at hl
    rw [hl]
    rfl
  have h2 := headDropWhile leadStripChar l hc
  constructor
  · intro hw
    exfalso
    simp [leadStripChar, hw] at h2
  · intro
    exact h2

theorem headOKHeadCons {l : Str} (h : headOK l) {c : Char} {r : Str}
    (hl : l = c :: r) (hw : pyIsSpace c = true) : l = ['\n'] := by
  have h2 := (h c r hl).1 hw
  rw [hl, h2.1, h2.2]

theorem stripKIMNl : stripKIM ['\n'] = ['\n'] := by decide

theorem stripIJINl : stripIJI ['\n'] = ['\n'] := by decide

theorem collapseNl : collapseSpaces ['\n'] = ['\n'] := by decide

theorem headOKTakeNl {l : Str} (h : headOK l) (hne : l ≠ ['\n']) (i : Nat) :
    headOK (l.take i ++ ['\n']) := by
  cases hti : l.take i with
  | nil =>
    simpa using headOKNl
  | cons c0 r0 =>
    intro c r hcr
    simp only [List.cons_append] at hcr
    injection hcr with hc1 hc2
    subst hc1
    have hh0 : (l.take i).head? = some c0 := by rw [hti]; rfl
    have hh : l.head? = some c0 := headOfPre (takePre l i) hh0
    have hlc : ∃ tl, l = c0 :: tl := by
      cases l with
      | nil => simp at hh
      | cons x t =>
        injection hh with hx
        exact ⟨t, by rw [hx]⟩
    obtain ⟨tl, htl⟩ := hlc
    constructor
    · intro hw
      exact absurd (headOKHeadCons h htl hw) hne
    · intro hw
      exact (h c0 tl htl).2 hw

theorem headOKStripKIM {l : Str} (h : headOK l) : headOK (stripKIM l) := by
  by_cases hl : l = ['\n']
  · subst hl
    rw [stripKIMNl]
    exact headOKNl
  · rcases stripKIMShape l with hp | ⟨i, hi⟩
    · exact headOKOfPre hp h
    · rw [hi]
      exact headOKTakeNl h hl i

theorem headOKStripIJI {l : Str} (h : headOK l) : headOK (stripIJI l) := by
  by_cases hl : l = ['\n']
  · subst hl
    rw [stripIJINl]
    exact headOKNl
  · rcases stripIJIShape l with hp | ⟨i, hi⟩
    · exact headOKOfPre hp h
    · rw [hi]
      exact headOKTakeNl h hl i

theorem headOKOfAlpha {c : Char} (hc : c.isAlpha = true) (r : Str) : headOK (c :: r) := by
  intro c2 r2 heq
  injection heq with h1 h2
  subst h1
  constructor
  · intro hw
    rw [alphaNotSpace hc] at hw
    exact absurd hw (by simp)
  · intro
    exact alphaNotLead hc

theorem headOKDropLeadingDigit {l : Str} (h : headOK l) : headOK (dropLeadingDigit l) := by
  rcases l with _ | ⟨c, _ | ⟨d, rest⟩⟩
  · exact h
  · exact h
  · rw [dropLeadingDigit]
    split
    · rename_i hcond
      exact headOKOfAlpha (Bool.and_elim_right hcond) rest
    · exact h

theorem toNatOfNat {n : Nat} (h : n < 55296) : (Char.ofNat n).toNat = n := by
  simp [Char.ofNat, Char.toNat, Char.ofNatAux, Nat.isValidChar, h]
  rfl

theorem toLowerEqH {c : Char} (h : c.toLower = 'h') : c = 'h' ∨ c = 'H' := by
  by_cases hc : c.toNat ≥ 65 ∧ c.toNat ≤ 90
  · right
    have h2 : Char.ofNat (c.toNat + 32) = 'h' := by
      rw [Char.toLower] at h
      simpa [hc] using h
    have h3 : (Char.ofNat (c.toNat + 32)).toNat = c.toNat + 32 := toNatOfNat (by omega)
    rw [h2] at h3
    apply charEqOfToNat
    have h4 : ('h' : Char).toNat = 104 := by decide
    have h5 : ('H' : Char).toNat = 72 := by decide
    omega
  · left
    rw [Char.toLower] at h
    simpa [hc] using h

theorem headOKLeadingArtifact {l : Str} (h : headOK l) : headOK (leadingArtifact l) := by
  rcases l with _ | ⟨c0, _ | ⟨c1, _ | ⟨c2, rest⟩⟩⟩
  · exact h
  · exact h
  · exact h
  · rw [leadingArtifact]
    split
    · split
      · rename_i hcase
        exact headOKOfAlpha (by simp [Char.isAlpha, Bool.and_elim_right hcase]) _
      · split
        · rename_i hcase
          have hlow : c1.toLower = 'h' := by
            simp only [List.take, List.map] at hcase
            injection hcase
          rcases toLowerEqH hlow with rfl | rfl
          · exact headOKOfAlpha (by decide) _
          · exact headOKOfAlpha (by decide) _
        · split
          · rename_i hcase
            have hi : c1 = 'i' := by
              have := Bool.and_elim_left hcase
              simpa using this
            subst hi
            exact headOKOfAlpha (by decide) _
          · exact h
    · exact h

theorem headOKCollapse {l : Str} (h : headOK l) : headOK (collapseSpaces l) := by
  cases l with
  | nil => exact h
  | cons c r =>
    by_cases hw : pyIsSpace c = true
    · have h2 := headOKHeadCons h rfl hw
      rw [h2, collapseNl]
      exact headOKNl
    · intro c2 r2 heq
      have hhd := headCollapse c r
      rw [heq] at hhd
      injection hhd with hc
      subst hc
      constructor
      · intro hw2
        rw [hw2] at hw
        exact absurd rfl hw
      · intro
        exact (h c2 r rfl).2 (by simpa using hw)

theorem pairOKNil : pairOK [] := by
  intro a b r h
  simp at h

theorem pairOKSingle (c : Char) : pairOK [c] := by
  intro a b r h
  simp at h

theorem pairOKDropLeadingDigit (l : Str) : pairOK (dropLeadingDigit l) := by
  rcases l with _ | ⟨c, _ | ⟨d, rest⟩⟩
  · exact pairOKNil
  · exact pairOKSingle c
  · rw [dropLeadingDigit]
    split
    · rename_i hcond
      intro a b r heq hdig
      injection heq with h1 h2
      have ha : d.isAlpha = true := Bool.and_elim_right hcond
      rw [← h1, alphaNotDigit ha] at hdig
      exact absurd hdig (by simp)
    · rename_i hcond
      intro a b r heq hdig
      injection heq with h1 h2
      injection h2 with h2a h2b
      rw [← h1] at hdig
      rw [← h2a]
      have hfalse : (c.isDigit && d.isAlpha) = false := by
        cases hx : (c.isDigit && d.isAlpha)
        · rfl
        · exact absurd hx hcond
      rw [hdig] at hfalse
      simpa using hfalse

theorem pairOKOfNotDigit {c : Char} (hc : c.isDigit = false) (r : Str) :
    pairOK (c :: r) := by
  intro a b r2 heq hdig
  injection heq with h1 h2
  subst h1
  rw [hc] at hdig
  exact absurd hdig (by simp)

theorem pairOKLeadingArtifact {l : Str} (h : pairOK l) : pairOK (leadingArtifact l) := by
  rcases l with _ | ⟨c0, _ | ⟨c1, _ | ⟨c2, rest⟩⟩⟩
  · exact h
  · exact h
  · exact h
  · rw [leadingArtifact]
    split
    · split
      · rename_i hcase
        have hup : c1.isUpper = true := Bool.and_elim_right hcase
        exact pairOKOfNotDigit (alphaNotDigit (by simp [Char.isAlpha, hup])) _
      · split
        · rename_i hcase
          have hlow : c1.toLower = 'h' := by
            simp only [List.take, List.map] at hcase
            injection hcase
          rcases toLowerEqH hlow with rfl | rfl
          · exact pairOKOfNotDigit (by decide) _
          · exact pairOKOfNotDigit (by decide) _
        · split
          · rename_i hcase
            have hi : c1 = 'i' := by
              have := Bool.and_elim_left hcase
              simpa using this
            subst hi
            exact pairOKOfNotDigit (by decide) _
          · exact h
    · exact h

theorem pairOKCollapse {l : Str} (h : pairOK l) : pairOK (collapseSpaces l) := by
  cases l with
  | nil => exact h
  | cons c0 r0 =>
    intro c d r heq hdig
    have hhd := headCollapse c0 r0
    rw [heq] at hhd
    injection hhd with hc
    subst hc
    rw [collapseSpaces] at heq
    split at heq
    · rename_i hcond
      rw [hcond.1] at hdig
      exact absurd hdig (by decide)
    · injection heq with h1 h2
      cases hr0 : r0 with
      | nil =>
        rw [hr0] at h2
        simp [collapseSpaces] at h2
      | cons d0 r1 =>
        have hhd2 := headCollapse d0 r1
        rw [← hr0, h2] at hhd2
        injection hhd2 with hd
        subst hd
        exact h c d r1 (by rw [hr0]) hdig

/-! Assembled facts about the output of the full pipeline. -/

theorem normalizeStrEq (s : Str) : normalizeStr s = pyStrip (preStripValue s) := rfl

theorem preStripValueEq (s : Str) :
    preStripValue s = collapseSpaces (leadingArtifact (dropLeadingDigit (stripIJI
      (stripKIM (stripNSMutable (stripNSDictionary (stripLeadingFormat
        (keepPrintable (replaceObjChar s))))))))) := rfl

theorem headOKPreStrip (s : Str) : headOK (preStripValue s) :=
  headOKCollapse (headOKLeadingArtifact (headOKDropLeadingDigit (headOKStripIJI
    (headOKStripKIM (headOKOfPre (stripNSMutablePre _) (headOKOfPre
      (stripNSDictionaryPre _) (headOKStripLeadingFormat _)))))))

theorem pairOKPreStrip (s : Str) : pairOK (preStripValue s) :=
  pairOKCollapse (pairOKLeadingArtifact (pairOKDropLeadingDigit _))

theorem chainPyStrip {l : Str} (h : noDbl l) : noDbl (pyStrip l) := by
  unfold noDbl at h ⊢
  have h1 : List.Chain' (fun a b => ¬(a = ' ' ∧ b = ' ')) (l.dropWhile pyIsSpace) :=
    List.Chain'.suffix h (List.dropWhile_suffix pyIsSpace)
  have hp : pyStrip l <+: l.dropWhile pyIsSpace :=
    List.rdropWhile_prefix pyIsSpace (l.dropWhile pyIsSpace)
  rw [eqTakeOfPre hp]
  exact List.Chain'.take h1 _

theorem chainPyStripEq {l t : Str} (ht : t = pyStrip l) (h : noDbl l) : noDbl t :=
  ht ▸ chainPyStrip h

theorem noDblPreStrip (s : Str) : noDbl (preStripValue s) := by
  rw [preStripValueEq]
  exact noDoubleSpace _

theorem chainNormalize (s : Str) : noDbl (normalizeStr s) :=
  chainPyStripEq (normalizeStrEq s) (noDblPreStrip s)

theorem noFFFCNormalize (s : Str) : '￼' ∉ normalizeStr s := by
  intro hmem
  rw [normalizeStrEq] at hmem
  have h1 := memPyStrip hmem
  have h2 := memCollapse h1
  have h3 := memLeadingArtifact h2
  have h4 := memDropLeadingDigit h3
  rcases memStripIJI h4 with h5 | h5
  · rcases memStripKIM h5 with h6 | h6
    · have h7 := memStripNSMutable h6
      have h8 := memStripNSDictionary h7
      have h9 := memStripLeadingFormat h8
      have h10 := memKeepPrintable h9
      rcases memReplaceObjChar h10 with ⟨_, hne⟩ | hbad
      · exact hne rfl
      · revert hbad
        decide
    · revert h6
      decide
  · revert h5
    decide

theorem printOkNormalize (s : Str) : ∀ a ∈ normalizeStr s, printOk a = true := by
  intro a hmem
  rw [normalizeStrEq] at hmem
  have h1 := memPyStrip hmem
  have h2 := memCollapse h1
  have h3 := memLeadingArtifact h2
  have h4 := memDropLeadingDigit h3
  rcases memStripIJI h4 with h5 | h5
  · rcases memStripKIM h5 with h6 | h6
    · have h7 := memStripNSMutable h6
      have h8 := memStripNSDictionary h7
      have h9 := memStripLeadingFormat h8
      exact printOkOfMemKeepPrintable h9
    · subst h6
      decide
  · subst h5
    decide

theorem replaceObjCharEqSelf {l : Str} (h : '￼' ∉ l) : replaceObjChar l = l := by
  induction l with
  | nil => rfl
  | cons c r ih =>
    rw [replaceObjChar, List.flatMap_cons]
    have hc : c ≠ '￼' := fun he => h (he ▸ List.mem_cons_self c r)
    rw [if_neg hc]
    have ih2 := ih (fun hm => h (List.mem_cons_of_mem c hm))
    rw [replaceObjChar] at ih2
    rw [ih2]
    rfl

theorem pyStripHeadLead {v : Str} (hA : headOK v) {c : Char}
    (hc : (pyStrip v).head? = some c) : leadStripChar c = false := by
  cases v with
  | nil =>
    rw [pyStripNil] at hc
    simp at hc
  | cons c0 r0 =>
    by_cases hw : pyIsSpace c0 = true
    · have h2 := headOKHeadCons hA rfl hw
      rw [h2] at hc
      have h3 : pyStrip ['\n'] = [] := by decide
      rw [h3] at hc
      simp at hc
    · have hdw : (c0 :: r0).dropWhile pyIsSpace = c0 :: r0 := by
        apply dropWhileEqSelf
        intro x hx
        injection hx with hx2
        rw [← hx2]
        simpa using hw
      have hp : pyStrip (c0 :: r0) <+: c0 :: r0 := by
        unfold pyStrip
        rw [hdw]
        exact List.rdropWhile_prefix pyIsSpace (c0 :: r0)
      have hh := headOfPre hp hc
      injection hh with hh2
      rw [← hh2]
      exact (hA c0 r0 rfl).2 (by simpa using hw)

theorem pyStripPair {v : Str} (hA : headOK v) (hB : pairOK v) {c d : Char} {r : Str}
    (ht : pyStrip v = c :: d :: r) (hdig : c.isDigit = true) : d.isAlpha = false := by
  cases v with
  | nil =>
    rw [pyStripNil] at ht
    simp at ht
  | cons c0 r0 =>
    by_cases hw : pyIsSpace c0 = true
    · have h2 := headOKHeadCons hA rfl hw
      rw [h2] at ht
      have h3 : pyStrip ['\n'] = [] := by decide
      rw [h3] at ht
      simp at ht
    · have hdw : (c0 :: r0).dropWhile pyIsSpace = c0 :: r0 := by
        apply dropWhileEqSelf
        intro x hx
        injection hx with hx2
        rw [← hx2]
        simpa using hw
      have hp : pyStrip (c0 :: r0) <+: c0 :: r0 := by
        unfold pyStrip
        rw [hdw]
        exact List.rdropWhile_prefix pyIsSpace (c0 :: r0)
      obtain ⟨r2, hr2⟩ := pairOfPre hp ht
      exact hB c d r2 hr2 hdig

theorem stripLeadingFormatEqSelf {v : Str} (hA : headOK v) :
    stripLeadingFormat (pyStrip v) = pyStrip v :=
  dropWhileEqSelf _ _ (fun _ hc => pyStripHeadLead hA hc)

theorem dropLeadingDigitEqSelf {v : Str} (hA : headOK v) (hB : pairOK v) :
    dropLeadingDigit (pyStrip v) = pyStrip v := by
  cases ht : pyStrip v with
  | nil => rfl
  | cons c t2 =>
    cases t2 with
    | nil => rfl
    | cons d r =>
      rw [dropLeadingDigit]
      split
      · rename_i hcond
        have h2 := pyStripPair hA hB ht (Bool.and_elim_left hcond)
        rw [h2] at hcond
        simp at hcond
      · rfl

theorem normalizeStrFix (s : Str)
    (h4 : stripNSDictionary (normalizeStr s) = normalizeStr s)
    (h5 : stripNSMutable (normalizeStr s) = normalizeStr s)
    (h6 : stripKIM (normalizeStr s) = normalizeStr s)
    (h7 : stripIJI (normalizeStr s) = normalizeStr s)
    (h9 : leadingArtifact (normalizeStr s) = normalizeStr s) :
    normalizeStr (normalizeStr s) = normalizeStr s := by
  have e1 : replaceObjChar (normalizeStr s) = normalizeStr s :=
    replaceObjCharEqSelf (noFFFCNormalize s)
  have e2 : keepPrintable (normalizeStr s) = normalizeStr s :=
    List.filter_eq_self.mpr (printOkNormalize s)
  have e3 : stripLeadingFormat (normalizeStr s) = normalizeStr s := by
    rw [normalizeStrEq]
    exact stripLeadingFormatEqSelf (headOKPreStrip s)
  have e8 : dropLeadingDigit (normalizeStr s) = normalizeStr s := by
    rw [normalizeStrEq]
    exact dropLeadingDigitEqSelf (headOKPreStrip s) (pairOKPreStrip s)
  have e10 : collapseSpaces (normalizeStr s) = normalizeStr s :=
    collapseEqSelf (chainNormalize s)
  have e11 : pyStrip (normalizeStr s) = normalizeStr s := by
    rw [normalizeStrEq]
    exact pyStripIdem _
  rw [normalizeStrEq (normalizeStr s), preStripValueEq (normalizeStr s),
    e1, e2, e3, h4, h5, h6, h7, e8, h9, e10, e11]

/-! Claim theorems. -/

/-- C2 (counterexample): the normaliser is not idempotent as claimed.
On the input `NSDictionaryNSDictionary` one pass removes only the final
`NSDictionary` artifact (the leftmost regex match ends at the string
end), and a second pass removes the remainder, so re-applying
`normalize` to its own output changes the string again. -/
theorem clean_message_not_idem :
    clean_message (clean_message (some ("NSDictionaryNSDictionary".toList))) ≠
      clean_message (some ("NSDictionaryNSDictionary".toList)) := by
  decide

/-- C2 (amended): `normalize` is idempotent on every string `s` on
which the four trailing-artifact rules (steps 4 to 7) and the
single-shot leading-artifact rule (step 9) leave `normalize(s)`
unchanged; the remaining rules (the object-replacement substitution,
the printable filter, the leading-run strip, the leading-digit drop,
the space collapse and the final strip) are always inert on the
pipeline's own output. -/
theorem clean_message_idem (s : Str)
    (h4 : stripNSDictionary (normalizeStr s) = normalizeStr s)
    (h5 : stripNSMutable (normalizeStr s) = normalizeStr s)
    (h6 : stripKIM (normalizeStr s) = normalizeStr s)
    (h7 : stripIJI (normalizeStr s) = normalizeStr s)
    (h9 : leadingArtifact (normalizeStr s) = normalizeStr s) :
    clean_message (clean_message (some s)) = clean_message (some s) := by
  by_cases hg : s = [] ∨ s = binaryDataSentinel ∨ s = noTextSentinel
  · have h1 : clean_message (some s) = some s := by
      simp only [clean_message, if_pos hg]
    rw [h1, h1]
  · have h1 : clean_message (some s) = some (normalizeStr s) := by
      simp only [clean_message, if_neg hg]
    rw [h1]
    by_cases hg2 : normalizeStr s = [] ∨ normalizeStr s = binaryDataSentinel ∨
        normalizeStr s = noTextSentinel
    · simp only [clean_message, if_pos hg2]
    · simp only [clean_message, if_neg hg2]
      rw [normalizeStrFix s h4 h5 h6 h7 h9]

/-- C2 (witness): the amended idempotence applied at `hello`. -/
theorem clean_message_idem_witness :
    clean_message (clean_message (some ("hello".toList))) =
      clean_message (some ("hello".toList)) :=
  clean_message_idem ("hello".toList) (by decide) (by decide) (by decide)
    (by decide) (by decide)

/-- C9: the normaliser returns its input unchanged on null input and on
each of the two sentinel strings. -/
theorem clean_message_sentinels :
    clean_message none = none ∧
    clean_message (some binaryDataSentinel) = some binaryDataSentinel ∧
    clean_message (some noTextSentinel) = some noTextSentinel := by
  refine ⟨rfl, ?_, ?_⟩ <;> decide

/-- C10: on every non-null, non-sentinel input the normaliser's output
has no leading or trailing whitespace and contains no run of two or
more consecutive spaces. -/
theorem clean_message_stripped (s : Str)
    (hb : s ≠ binaryDataSentinel) (hn : s ≠ noTextSentinel) :
    ∃ t, clean_message (some s) = some t ∧
      (∀ c, t.head? = some c → pyIsSpace c = false) ∧
      (∀ c, t.getLast? = some c → pyIsSpace c = false) ∧
      noDbl t := by
  by_cases hg : s = [] ∨ s = binaryDataSentinel ∨ s = noTextSentinel
  · rcases hg with rfl | hg | hg
    · refine ⟨[], by simp [clean_message], ?_, ?_, ?_⟩
      · intro c hc
        simp at hc
      · intro c hc
        simp at hc
      · unfold noDbl
        simp
    · exact absurd hg hb
    · exact absurd hg hn
  · refine ⟨normalizeStr s, by simp only [clean_message, if_neg hg], ?_, ?_, chainNormalize s⟩
    · intro c hc
      rw [normalizeStrEq] at hc
      exact pyStripHead _ hc
    · intro c hc
      rw [normalizeStrEq] at hc
      exact pyStripLast _ hc

/-- C10 (witness): the stripped-output property applied at a concrete
input containing leading whitespace and a double space. -/
theorem clean_message_stripped_witness :
    ∃ t, clean_message (some ("  a  b ".toList)) = some t ∧
      (∀ c, t.head? = some c → pyIsSpace c = false) ∧
      (∀ c, t.getLast? = some c → pyIsSpace c = false) ∧
      noDbl t :=
  clean_message_stripped ("  a  b ".toList) (by decide) (by decide)

theorem rdropAppendRtake (p : Char → Bool) (l : Str) :
    l = l.rdropWhile p ++ l.rtakeWhile p := by
  have h : l.reverse.takeWhile p ++ l.reverse.dropWhile p = l.reverse :=
    List.takeWhile_append_dropWhile p l.reverse
  calc l = l.reverse.reverse := (List.reverse_reverse l).symm
    _ = (l.reverse.takeWhile p ++ l.reverse.dropWhile p).reverse := by rw [h]
    _ = (l.reverse.dropWhile p).reverse ++ (l.reverse.takeWhile p).reverse :=
      List.reverse_append _ _
    _ = l.rdropWhile p ++ l.rtakeWhile p := rfl

theorem quoteNotSpace {c : Char} (h : c ∈ quoteChars) : pyIsSpace c = false := by
  simp only [quoteChars, List.mem_cons, List.not_mem_nil, or_false] at h
  rcases h with rfl | rfl | rfl | rfl | rfl | rfl <;> decide

theorem dropWhileAppendAll {p : Char → Bool} {a : Str} (ha : ∀ x ∈ a, p x = true)
    (b : Str) : (a ++ b).dropWhile p = b.dropWhile p := by
  induction a with
  | nil => rfl
  | cons x r ih =>
    rw [List.cons_append, List.dropWhile_cons_of_pos (ha x (List.mem_cons_self x r))]
    exact ih (fun y hy => ha y (List.mem_cons_of_mem x hy))

/-- C7: the reaction classifier returns true exactly on strings that
start with one of the seven reaction verbs immediately followed by a
whitespace character, and false on null and empty input. -/
theorem is_reaction_spec :
    is_reaction_message none = false ∧
    is_reaction_message (some []) = false ∧
    ∀ l : Str, (is_reaction_message (some l) = true ↔
      ∃ w ∈ reactionWords, ∃ c rest, pyIsSpace c = true ∧ l = w ++ c :: rest) := by
  refine ⟨rfl, rfl, ?_⟩
  intro l
  constructor
  · intro h
    simp only [is_reaction_message] at h
    split at h
    · exact absurd h (by simp)
    · obtain ⟨w, hw, hstart⟩ := List.any_eq_true.mp h
      rw [startsReaction, Bool.and_eq_true] at hstart
      obtain ⟨u, rfl⟩ := List.isPrefixOf_iff_prefix.mp hstart.1
      have hd : (w ++ u).drop w.length = u := List.drop_left w u
      rw [hd] at hstart
      cases u with
      | nil => exact absurd hstart.2 (by simp)
      | cons c rest =>
        refine ⟨w, hw, c, rest, ?_, rfl⟩
        simpa using hstart.2
  · rintro ⟨w, hw, c, rest, hws, rfl⟩
    have hne : w ++ c :: rest ≠ [] := by simp
    simp only [is_reaction_message, if_neg hne]
    apply List.any_eq_true.mpr
    refine ⟨w, hw, ?_⟩
    have hp : w.isPrefixOf (w ++ c :: rest) = true :=
      List.isPrefixOf_iff_prefix.mpr ⟨c :: rest, rfl⟩
    have hd : ((w ++ c :: rest).drop w.length).head? = some c := by
      rw [List.drop_left]
      rfl
    rw [startsReaction, Bool.and_eq_true, hd]
    exact ⟨hp, hws⟩

/-- C7 (witness): the characterisation applied at a concrete reaction
message. -/
theorem is_reaction_spec_witness :
    is_reaction_message (some ("Loved “ok”".toList)) = true :=
  (is_reaction_spec.2.2 ("Loved “ok”".toList)).mpr
    ⟨"Loved".toList, by decide, ' ', "“ok”".toList, by decide, by decide⟩

/-- C8: the quote classifier returns true exactly on strings that are a
prefix, then a quote character, then trailing whitespace; null, empty
and whitespace-only input yield false. -/
theorem is_quoted_spec :
    is_quoted_message none = false ∧
    (∀ l : Str, (∀ x ∈ l, pyIsSpace x = true) → is_quoted_message (some l) = false) ∧
    ∀ l : Str, (is_quoted_message (some l) = true ↔
      ∃ c ∈ quoteChars, ∃ pre ws, (∀ x ∈ ws, pyIsSpace x = true) ∧ l = pre ++ c :: ws) := by
  refine ⟨rfl, ?_, ?_⟩
  · intro l hl
    cases hc : l with
    | nil => rfl
    | cons x r =>
      have hne : l ≠ [] := by rw [hc]; simp
      rw [← hc]
      simp only [is_quoted_message, if_neg hne]
      have hnil : l.rdropWhile pyIsSpace = [] := List.rdropWhile_eq_nil_iff.mpr hl
      rw [hnil]
      rfl
  · intro l
    constructor
    · intro h
      simp only [is_quoted_message] at h
      split at h
      · exact absurd h (by simp)
      · rename_i hne
        cases hlast : (l.rdropWhile pyIsSpace).getLast? with
        | none =>
          rw [hlast] at h
          exact absurd h (by simp)
        | some c =>
          rw [hlast] at h
          have hc : c ∈ quoteChars := by
            simpa [List.elem_eq_mem] using h
          have hsne : l.rdropWhile pyIsSpace ≠ [] := by
            intro he
            rw [he] at hlast
            simp at hlast
          have hdecomp := rdropAppendRtake pyIsSpace l
          have hlast2 := List.getLast?_eq_getLast _ hsne
          rw [hlast2] at hlast
          have hc2 := Option.some.inj hlast
          have hstr : (l.rdropWhile pyIsSpace).dropLast ++ [c] = l.rdropWhile pyIsSpace := by
            rw [← hc2]
            exact List.dropLast_append_getLast hsne
          refine ⟨c, hc, (l.rdropWhile pyIsSpace).dropLast, l.rtakeWhile pyIsSpace,
            fun x hx => List.mem_rtakeWhile_imp hx, ?_⟩
          conv_lhs => rw [hdecomp]
          rw [← hstr]
          simp
    · rintro ⟨c, hc, pre, ws, hws, rfl⟩
      have hne : pre ++ c :: ws ≠ [] := by simp
      simp only [is_quoted_message, if_neg hne]
      have hrev : (pre ++ c :: ws).reverse = ws.reverse ++ c :: pre.reverse := by
        simp
      have hdw : ((pre ++ c :: ws).reverse.dropWhile pyIsSpace) = c :: pre.reverse := by
        rw [hrev, dropWhileAppendAll (fun x hx => hws x (by simpa using hx))]
        exact List.dropWhile_cons_of_neg (by simp [quoteNotSpace hc])
      have hstr : (pre ++ c :: ws).rdropWhile pyIsSpace = pre ++ [c] := by
        show ((pre ++ c :: ws).reverse.dropWhile pyIsSpace).reverse = pre ++ [c]
        rw [hdw]
        simp
      rw [hstr, List.getLast?_concat]
      simp [List.elem_eq_mem, hc]

/-- C8 (witness): the characterisation applied at a concrete quoted
message. -/
theorem is_quoted_spec_witness :
    is_quoted_message (some ("She said \"hi\"".toList)) = true :=
  (is_quoted_spec.2.2 ("She said \"hi\"".toList)).mpr
    ⟨Char.ofNat 0x22, by decide, "She said \"hi".toList, [], by simp, by decide⟩

/-! Decoder helper lemmas. -/

theorem utf8SkipInvalid {b : Nat} (h1 : 0x80 ≤ b) (h2 : b ≤ 0xBF) (r : List Nat) :
    utf8IgnoreDecode (b :: r) = utf8IgnoreDecode r := by
  have hb1 : ¬(b < 0x80) := by omega
  have hb2 : (decide (0xC2 ≤ b) && decide (b ≤ 0xDF)) = false := by
    refine Bool.and_eq_false_iff.mpr (Or.inl ?_)
    simp only [decide_eq_false_iff_not]
    omega
  have hb3 : (decide (0xE0 ≤ b) && decide (b ≤ 0xEF)) = false := by
    refine Bool.and_eq_false_iff.mpr (Or.inl ?_)
    simp only [decide_eq_false_iff_not]
    omega
  have hb4 : (decide (0xF0 ≤ b) && decide (b ≤ 0xF4)) = false := by
    refine Bool.and_eq_false_iff.mpr (Or.inl ?_)
    simp only [decide_eq_false_iff_not]
    omega
  cases r with
  | nil =>
    rw [utf8IgnoreDecode.eq_def]
    dsimp only
    rw [if_neg hb1, utf8IgnoreDecode.eq_def]
  | cons c rs =>
    rw [utf8IgnoreDecode.eq_def]
    dsimp only
    simp only [hb2, hb3, hb4]
    simp [hb1]

theorem utf8SkipAll {f : List Nat} (hf : ∀ b ∈ f, 0x80 ≤ b ∧ b ≤ 0xBF)
    (r : List Nat) : utf8IgnoreDecode (f ++ r) = utf8IgnoreDecode r := by
  induction f with
  | nil => rfl
  | cons b fs ih =>
    rw [List.cons_append,
      utf8SkipInvalid (hf b (List.mem_cons_self b fs)).1 (hf b (List.mem_cons_self b fs)).2]
    exact ih (fun x hx => hf x (List.mem_cons_of_mem b hx))

theorem findNulAppendNone {a : List Nat} (ha : ∀ x ∈ a, x ≠ 0) (b : List Nat) :
    findNulIdx (a ++ b) = (findNulIdx b).map (· + a.length) := by
  induction a with
  | nil => simp [Option.map_id]
  | cons x r ih =>
    rw [List.cons_append, findNulIdx,
      if_neg (ha x (List.mem_cons_self x r)),
      ih (fun y hy => ha y (List.mem_cons_of_mem x hy))]
    cases findNulIdx b with
    | none => rfl
    | some k =>
      simp only [Option.map_some', List.length_cons, Option.some.injEq]
      omega

/-- C1 (counterexample): on the empty byte string the decoder returns
null rather than a string (the falsiness guard fires before any
strategy runs). -/
theorem decode_empty_none :
    decode_attributed_body none [] = none ∧
    ¬∃ t : Str, decode_attributed_body none [] = some t := by
  have h0 : decode_attributed_body none [] = none := rfl
  refine ⟨h0, ?_⟩
  rintro ⟨t, ht⟩
  rw [h0] at ht
  exact Option.noConfusion ht

/-- C1 (amended): on every non-empty byte string, under any outcome of
the optional platform strategy, the decoder returns a string (possibly
the sentinel) and, being a total function, cannot raise. -/
theorem decode_total (s1 : Option Str) (b : List Nat) (hb : b ≠ []) :
    ∃ t : Str, decode_attributed_body s1 b = some t := by
  rw [decode_attributed_body.eq_def, if_neg hb]
  cases s1 with
  | none => exact ⟨decodeTail b, rfl⟩
  | some t =>
    dsimp only
    split
    · exact ⟨decodeTail b, rfl⟩
    · exact ⟨t, rfl⟩

/-- C1 (witness): decoder totality applied at a concrete non-empty
input. -/
theorem decode_total_witness :
    ∃ t : Str, decode_attributed_body none [1, 2, 3] = some t :=
  decode_total none [1, 2, 3] (by decide)

/-- C5 (counterexample): a blob of fifty NUL bytes followed by a
newline defeats the claim: the filtered characters survive the
truthiness test before stripping, and the stripped result that is then
returned is the empty string, not the sentinel. -/
theorem strategy3_empty_cex :
    decode_attributed_body none (List.replicate 50 0 ++ [10]) = some [] ∧
    ([] : Str) ≠ binaryDataSentinel := by
  constructor
  · decide
  · decide

/-- C5 (amended): when the marker is absent and the platform strategy
declined, the decoder returns the stripped filtered tail whenever the
filtered string is non-empty before stripping (so a whitespace-only
filtered tail yields the empty string), and the sentinel otherwise. -/
theorem strategy3_spec (data : List Nat) (hne : data ≠ [])
    (hmark : findSub nsStringMarker data = none) :
    decode_attributed_body none data =
      (if 50 < data.length ∧ (utf8IgnoreDecode (data.drop 50)).filter printOk ≠ [] then
        some (pyStrip ((utf8IgnoreDecode (data.drop 50)).filter printOk))
      else some binaryDataSentinel) := by
  have hs2 : strategy2 data = none := by
    rw [strategy2.eq_def, hmark]
  rw [decode_attributed_body.eq_def, if_neg hne]
  dsimp only
  rw [decodeTail, hs2]
  rw [strategy3.eq_def]
  by_cases hlen : 50 < data.length
  · rw [if_pos hlen]
    dsimp only
    by_cases hcl : (utf8IgnoreDecode (data.drop 50)).filter printOk = []
    · rw [if_pos hcl, if_neg (by simp [hcl])]
      rfl
    · rw [if_neg hcl, if_pos ⟨hlen, hcl⟩]
      rfl
  · rw [if_neg hlen, if_neg (by intro h; exact hlen h.1)]
    rfl

/-- C5 (witness): the fixed-offset characterisation applied at a short
concrete blob, on which all strategies fail and the sentinel is
returned. -/
theorem strategy3_spec_witness :
    decode_attributed_body none [1, 2, 3] =
      (if 50 < ([1, 2, 3] : List Nat).length ∧
          (utf8IgnoreDecode (([1, 2, 3] : List Nat).drop 50)).filter printOk ≠ [] then
        some (pyStrip ((utf8IgnoreDecode (([1, 2, 3] : List Nat).drop 50)).filter printOk))
      else some binaryDataSentinel) :=
  strategy3_spec [1, 2, 3] (by decide) (by decide)

/-- The UTF-8 bytes of `hello`. -/
def helloBytes : List Nat := [0x68, 0x65, 0x6C, 0x6C, 0x6F]

theorem findSubAtZero {pat : List Nat} (l : List Nat) (h : pat.isPrefixOf l = true) :
    findSub pat l = some 0 := by
  cases l with
  | nil =>
    simp only [findSub]
    rw [if_pos h]
  | cons b r =>
    simp only [findSub]
    rw [if_pos h]

/-- C3 (counterexample): with eight ASCII `A` filler bytes the decoder
returns the filler together with `hello`, not `hello`: the marker scan
reads from eight bytes past the marker start, which is immediately
after the eight-byte marker itself, so decodable filler bytes appear in
the output. -/
theorem marker_scan_cex :
    decode_attributed_body none
        (nsStringMarker ++ List.replicate 8 0x41 ++ (helloBytes ++ [0])) =
      some ("AAAAAAAAhello".toList) ∧
    "AAAAAAAAhello".toList ≠ "hello".toList := by
  constructor
  · decide
  · decide

/-- C3 (amended): for a blob of the marker, eight filler bytes that are
undecodable as UTF-8 (lone continuation bytes), the bytes of `hello`
and a NUL, the decoder returns `hello`: the scan reads from eight bytes
past the marker start to the NUL and the invalid filler bytes are
dropped by the ignoring UTF-8 decode. -/
theorem marker_scan_amended (filler : List Nat) (hlen : filler.length = 8)
    (hbytes : ∀ b ∈ filler, 0x80 ≤ b ∧ b ≤ 0xBF) :
    decode_attributed_body none (nsStringMarker ++ filler ++ (helloBytes ++ [0])) =
      some ("hello".toList) := by
  have hne : nsStringMarker ++ filler ++ (helloBytes ++ [0]) ≠ [] := by
    simp [nsStringMarker]
  have hfind : findSub nsStringMarker (nsStringMarker ++ filler ++ (helloBytes ++ [0])) =
      some 0 := by
    apply findSubAtZero
    exact List.isPrefixOf_iff_prefix.mpr ⟨filler ++ (helloBytes ++ [0]), rfl⟩
  have hdrop : (nsStringMarker ++ filler ++ (helloBytes ++ [0])).drop (0 + 8) =
      filler ++ (helloBytes ++ [0]) := by
    have h8 : (0 + 8 : Nat) = nsStringMarker.length := by decide
    rw [h8]
    exact List.drop_left _ _
  have hlen2 : 0 + 8 < (nsStringMarker ++ filler ++ (helloBytes ++ [0])).length := by
    simp [List.length_append, nsStringMarker, helloBytes]
  have hnz : ∀ x ∈ filler, x ≠ 0 := fun x hx => by
    have := (hbytes x hx).1
    omega
  have hnul : findNulIdx (filler ++ (helloBytes ++ [0])) = some 13 := by
    rw [findNulAppendNone hnz]
    have h5 : findNulIdx (helloBytes ++ [0]) = some 5 := by decide
    rw [h5]
    simp [hlen]
  have htake : (filler ++ (helloBytes ++ [0])).take 13 = filler ++ helloBytes := by
    have h13 : (13 : Nat) = filler.length + 5 := by omega
    rw [h13, List.take_append]
    have h5 : (helloBytes ++ [0]).take 5 = helloBytes := by decide
    rw [h5]
  have hdec : utf8IgnoreDecode (filler ++ helloBytes) = "hello".toList := by
    rw [utf8SkipAll hbytes]
    decide
  have hs2 : strategy2 (nsStringMarker ++ filler ++ (helloBytes ++ [0])) =
      some ("hello".toList) := by
    rw [strategy2.eq_def, hfind]
    dsimp only
    rw [if_pos hlen2, hdrop, hnul]
    dsimp only
    rw [if_pos (by omega : (0 : Nat) < 13), htake, hdec]
    rw [if_neg (by decide : ¬("hello".toList = ([] : Str)))]
  rw [decode_attributed_body.eq_def, if_neg hne]
  dsimp only
  rw [decodeTail, hs2]
  rfl

/-- C3 (witness): the amended marker-scan behaviour at the concrete
filler of eight `0x80` bytes. -/
theorem marker_scan_amended_witness :
    decode_attributed_body none
        (nsStringMarker ++ List.replicate 8 0x80 ++ (helloBytes ++ [0])) =
      some ("hello".toList) :=
  marker_scan_amended (List.replicate 8 0x80) (by decide) (by decide)

/-- C6 (counterexample): for a row with absent plain text and a present
but empty blob the dispatch uses the empty string directly (the blob is
falsy), while the claim's reading (any present blob is decoded)
prescribes the decoder output, which is null on the empty blob. -/
theorem dispatch_cex :
    preNormText none none (some []) = some [] ∧
    preNormTextClaim none none (some []) = none ∧
    (some ([] : Str) : Option Str) ≠ none := by
  refine ⟨rfl, rfl, by simp⟩

/-- C6 (amended): the dispatch uses plain text when present and
non-empty, else the decoder on a blob that is present and non-empty,
else the empty string; plain text always takes priority over blob
decoding. -/
theorem dispatch_amended (s1 : Option Str) (text : Option Str)
    (blob : Option (List Nat)) :
    preNormText s1 text blob = preNormTextAmended s1 text blob := by
  rcases text with _ | (_ | ⟨c, t2⟩) <;> rcases blob with _ | (_ | ⟨x, bs⟩) <;> rfl

/-- C6 (witness): the amended dispatch at a concrete row with plain
text present. -/
theorem dispatch_amended_witness :
    preNormText none (some ['x']) none = preNormTextAmended none (some ['x']) none :=
  dispatch_amended none (some ['x']) none

/-- C4: the timestamp conversion returns null on null and zero input
and agrees with the claimed exact formula on the spec's example, but
the floating-point arithmetic the code performs rounds up near second
boundaries: at 1999999999 nanoseconds the code yields 978307202 while
the claimed `floor(ts / 1e9) + 978307200` is 978307201. -/
theorem apple_to_unix_eval :
    apple_to_unix none = none ∧
    apple_to_unix (some 0) = none ∧
    apple_to_unix (some 694224000000000000) = some 1672531200 ∧
    apple_to_unix (some 1999999999) = some 978307202 ∧
    appleToUnixFloorSpec (some 1999999999) = some 978307201 := by
  refine ⟨rfl, by decide, by decide, by decide, by decide⟩
